import Mathlib

/-!
Shallow embedding of the binary structure decoder of the PyDevices repository:
`src/Utils/BinaryParser.py` (`parse_struct_from_hex`, `check_struct`) together
with its supporting primitives from `src/Utils/Tools.py`
(`extract_value_from_hex`, `convert_endianess`, `hex_string_to_char_string`,
`get_byte_from_hex`).

A Python string is modelled as a `List Char`; Python slicing (including
negative indices) is modelled by `pySlice`.  Python `int(s, 16)` raises
`ValueError` on an empty string or on a non-hex character, so it is modelled
as an `Option Nat`.  Runtime `assert` failures and raised errors of the
decoder are modelled by `Except` with explicit error values.  The ordered
field dictionary (`OrderedDict`) of a schema is modelled as an ordered
sequence of (name, descriptor) pairs, mutually inductive with the field
descriptor type so that the recursive decoder is structurally recursive.
-/

/-- A Python string: a list of characters. -/
abbrev PyStr := List Char

/-- Value of one hex digit, as accepted by Python `int(c, 16)`;
`none` for a non-hex character. -/
def hexDigitVal (c : Char) : Option Nat :=
  if '0' ≤ c ∧ c ≤ '9' then some (c.toNat - '0'.toNat)
  else if 'a' ≤ c ∧ c ≤ 'f' then some (c.toNat - 'a'.toNat + 10)
  else if 'A' ≤ c ∧ c ≤ 'F' then some (c.toNat - 'A'.toNat + 10)
  else none

/-- Accumulator loop of `int(s, 16)`. -/
def int16Core : PyStr → Nat → Option Nat
  | [], acc => some acc
  | c :: rest, acc =>
    match hexDigitVal c with
    | none => none
    | some d => int16Core rest (16 * acc + d)

/-- Python `int(s, 16)`: fails (ValueError) on the empty string and on
non-hex characters. -/
def int16 (s : PyStr) : Option Nat :=
  if s.isEmpty then none else int16Core s 0

/-- Python index normalization for a slice bound: negative indices count from
the end, and both ends are clamped to `[0, len]`. -/
def pyIdx (len : Nat) (i : Int) : Nat :=
  if i < 0 then ((len : Int) + i).toNat else min i.toNat len

/-- Python slice `s[a:b]` (step 1). -/
def pySlice (s : List α) (a b : Int) : List α :=
  (s.take (pyIdx s.length b)).drop (pyIdx s.length a)

/-- Tools.extract_value_from_hex: `(int(s,16) >> start_bit) & (2**length_bits - 1)`. -/
def extract_value_from_hex (hex_string : PyStr) (start_bit length_bits : Nat) : Option Nat :=
  match int16 hex_string with
  | none => none
  | some v => some ((v >>> start_bit) &&& (2 ^ length_bits - 1))

/-- Tools.convert_endianess: swap byte order in a hex string,
`for i in range(0, length, 2): result += s[length-i-2 : length-i]`. -/
def convert_endianess (hex_string : PyStr) : PyStr :=
  (List.range' 0 ((hex_string.length + 1) / 2) 2).foldl
    (fun (result : PyStr) (i : Nat) =>
      result ++ pySlice hex_string ((hex_string.length : Int) - (i : Int) - 2)
        ((hex_string.length : Int) - (i : Int)))
    []

/-- Tools.get_byte_from_hex: `int(s[2*position : 2*(position+1)], 16)`. -/
def get_byte_from_hex (position : Nat) (hex_string : PyStr) : Option Nat :=
  int16 (pySlice hex_string ((2 * position : Nat) : Int) ((2 * (position + 1) : Nat) : Int))

/-- Tools.hex_string_to_char_string: every byte of the hex string converted
to a character via `chr`. -/
def hex_string_to_char_string (hex_string : PyStr) : Option String :=
  (List.range (hex_string.length / 2)).foldl
    (fun acc byte_n =>
      match acc with
      | none => none
      | some s =>
        match get_byte_from_hex byte_n hex_string with
        | none => none
        | some b => some (s.push (Char.ofNat b)))
    (some "")

/-- A decoded field value: an integer for simple/packed fields, the raw hex
text for TYPE_ARRAY, decoded text for TYPE_STRING and a nested ordered
mapping for TYPE_STRUCT. -/
inductive Value where
  | num (n : Nat)
  | hexArr (h : PyStr)
  | str (s : String)
  | struct (fields : List (String × Value))

mutual

/-- A field descriptor of a schema, mirroring the Python encodings:
an `int` (simple field), `(bits, TYPE_8/16/32_BITS)` (packed field),
`(bits, TYPE_ARRAY)`, `(bits, TYPE_STRING)` and `(sub_struct, TYPE_STRUCT)`;
each tuple form may carry a callable third element (the handler). -/
inductive FieldDesc where
  | scalar (width : Nat)
  | packed (width container : Nat) (handler : Option (Value → Value))
  | array (bits : Nat) (handler : Option (Value → Value))
  | strF (bits : Nat) (handler : Option (Value → Value))
  | structF (sub : Schema) (handler : Option (Value → Value))

/-- A schema: the ordered field dictionary (`OrderedDict` of name/descriptor
pairs). -/
inductive Schema where
  | nil
  | cons (name : String) (d : FieldDesc) (rest : Schema)

end

/-- Build a schema from a list of name/descriptor pairs (in order). -/
def Schema.ofList : List (String × FieldDesc) → Schema
  | [] => .nil
  | (name, d) :: rest => .cons name d (Schema.ofList rest)

/-- Concatenation of two schemas. -/
def Schema.append : Schema → Schema → Schema
  | .nil, t => t
  | .cons name d rest, t => .cons name d (Schema.append rest t)

instance : Append Schema := ⟨Schema.append⟩

/-- Number of fields of a schema. -/
def Schema.length : Schema → Nat
  | .nil => 0
  | .cons _ _ rest => rest.length + 1

/-- Handler attached to a field descriptor (third tuple element); a simple
`int` field cannot carry one. -/
def FieldDesc.handlerOf : FieldDesc → Option (Value → Value)
  | .scalar _ => none
  | .packed _ _ t => t
  | .array _ t => t
  | .strF _ t => t
  | .structF _ t => t

/-- Errors raised by `check_struct` (AssertionError messages). -/
inductive SErr where
  | scalarMidRun (field : String)
  | notMultipleOf8 (field : String)
  | overflow (field : String)
  | changedContainer (field : String)
deriving DecidableEq, Repr

/-- Errors raised by `parse_struct_from_hex`. -/
inductive PErr where
  | oddLength
  | lengthMismatch
  | schemaErr (e : SErr)
  | valueErr
deriving DecidableEq, Repr

mutual

/-- Field length and container length of one field, as computed at the top of
the `check_struct` loop body (including the mid-run check for simple
fields and the recursive length computation for struct fields). -/
def checkD : FieldDesc → String → Nat → Except SErr (Nat × Nat)
  | .scalar w, name, off => if off = 0 then .ok (w, w) else .error (.scalarMidRun name)
  | .array n _, _, _ => .ok (n, n)
  | .strF n _, _, _ => .ok (n, n)
  | .structF sub _, _, _ =>
    match checkGo sub 0 0 0 with
    | .error e => .error e
    | .ok m => .ok (m, m)
  | .packed w c _, _, _ => .ok (w, c)

/-- Loop of `check_struct`, carrying `total_length_sum_bits`,
`packed_field_offset` and `prev_container_length`. -/
def checkGo : Schema → Nat → Nat → Nat → Except SErr Nat
  | .nil, total, _, _ => .ok total
  | .cons name d rest, total, off, prev =>
    match checkD d name off with
    | .error e => .error e
    | .ok (fl, c) =>
      if c % 8 ≠ 0 then .error (.notMultipleOf8 name)
      else
        let off' := off + fl
        if off' > c then .error (.overflow name)
        else if off' < c then
          if off ≠ 0 ∧ prev ≠ c then .error (.changedContainer name)
          else checkGo rest total off' c
        else checkGo rest (total + off') 0 c

end

/-- BinaryParser.check_struct: returns the structure length in bits or the
first schema error. -/
def check_struct (fields : Schema) : Except SErr Nat :=
  checkGo fields 0 0 0

mutual

/-- One iteration of the `parse_struct_from_hex` field loop: given the loop
state (`container_fields_offset`, `packed_field_offset`,
`first_packed_field`, `container_value`) it produces the parsed value of the
field and the updated state. -/
def fieldStep (d : FieldDesc) (H : PyStr)
    (cursor off : Nat) (first : Bool) (cont : PyStr) :
    Except PErr (Value × Nat × Nat × Bool × PyStr) :=
  let cpE : Except PErr (Nat × Nat) :=
    match d with
    | .scalar w => .ok (w, w)
    | .array n _ => .ok (n, n)
    | .strF n _ => .ok (n, n)
    | .structF sub _ =>
      match check_struct sub with
      | .error e => .error (.schemaErr e)
      | .ok m => .ok (m, m)
    | .packed w c _ => .ok (c, w)
  match cpE with
  | .error e => .error e
  | .ok (c, p) =>
    let off1 := if first then 0 else off
    let cont1 :=
      if first then
        pySlice H ((cursor / 4 : Nat) : Int) ((cursor / 4 + c / 4 : Nat) : Int)
      else cont
    let cursor1 := if first then cursor + c else cursor
    let vE : Except PErr (Value × PyStr) :=
      match d with
      | .array _ _ => .ok (.hexArr cont1, cont1)
      | .strF _ _ =>
        match hex_string_to_char_string cont1 with
        | none => .error .valueErr
        | some s => .ok (.str s, cont1)
      | .structF sub _ =>
        if cont1.length % 2 ≠ 0 then .error .oddLength
        else
          match check_struct sub with
          | .error e => .error (.schemaErr e)
          | .ok sl =>
            if sl ≠ cont1.length * 4 then .error .lengthMismatch
            else
              match goS sub cont1 0 0 true [] [] with
              | .error e => .error e
              | .ok (r, _, _, _, _) => .ok (.struct r, cont1)
      | _ =>
        let cont2 := if first then convert_endianess cont1 else cont1
        match extract_value_from_hex cont2 off1 p with
        | none => .error .valueErr
        | some v => .ok (.num v, cont2)
    match vE with
    | .error e => .error e
    | .ok (v0, cont3) =>
      let v := match d.handlerOf with | some t => t v0 | none => v0
      .ok (v, cursor1, off1 + p, off1 + p == c, cont3)

/-- The field loop of `parse_struct_from_hex`, returning the result mapping
together with the final loop state. -/
def goS : Schema → PyStr → Nat → Nat → Bool → PyStr → List (String × Value) →
    Except PErr (List (String × Value) × Nat × Nat × Bool × PyStr)
  | .nil, _, cursor, off, first, cont, acc => .ok (acc, cursor, off, first, cont)
  | .cons name d rest, H, cursor, off, first, cont, acc =>
    match fieldStep d H cursor off first cont with
    | .error e => .error e
    | .ok (v, cursor', off', first', cont') =>
      goS rest H cursor' off' first' cont' (acc ++ [(name, v)])

end

/-- BinaryParser.parse_struct_from_hex: validates the hex string length and
the schema, then decodes the fields in order. -/
def parse_struct_from_hex (fields : Schema) (hex_string : PyStr) :
    Except PErr (List (String × Value)) :=
  if hex_string.length % 2 ≠ 0 then .error .oddLength
  else
    match check_struct fields with
    | .error e => .error (.schemaErr e)
    | .ok struct_length =>
      if struct_length ≠ hex_string.length * 4 then .error .lengthMismatch
      else
        match goS fields hex_string 0 0 true [] [] with
        | .error e => .error e
        | .ok (r, _, _, _, _) => .ok r

/-- Characters of a Lean string literal, used to write hex payloads. -/
def hexS (s : String) : PyStr := s.data

/-- A character accepted by `int(c, 16)`. -/
def hexOk (c : Char) : Bool := (hexDigitVal c).isSome

/-- Reversal of the byte (character pair) order of a string; on even-length
strings this is what `convert_endianess` computes. -/
def pairRev : List α → List α
  | a :: b :: rest => pairRev rest ++ [a, b]
  | l => l

mutual

/-- Declared bit width of one field (a nested struct contributes its own
total). -/
def descBits : FieldDesc → Nat
  | .scalar w => w
  | .packed w _ _ => w
  | .array n _ => n
  | .strF n _ => n
  | .structF sub _ => schemaBits sub

/-- Total declared bit length of a schema: the sum of the declared widths of
all fields. -/
def schemaBits : Schema → Nat
  | .nil => 0
  | .cons _ d rest => descBits d + schemaBits rest

end

mutual

/-- Well-formedness of the head descriptor's nested parts: a struct field
carries a well-formed sub-schema. -/
def wfD : FieldDesc → Bool
  | .structF sub _ => wfS sub
  | _ => true

/-- Well-formed schema in the sense of the specification's data-model
invariants (section 3): every container width is a nonzero multiple of 8,
and within one container the consecutive `Packed`/`Scalar` widths, in
declaration order, sum to the container width exactly (no overflow, no
under-fill, no container-width change inside an open run).  The
specification additionally restricts container widths to {8, 16, 32}; this
predicate is deliberately more liberal, so theorems assuming it cover all
specification-well-formed schemas. -/
def wfS : Schema → Bool
  | .nil => true
  | .cons _ d rest =>
    wfD d &&
      match d with
      | .scalar w => w % 8 == 0 && w != 0 && wfS rest
      | .array n _ => n % 8 == 0 && wfS rest
      | .strF n _ => n % 8 == 0 && wfS rest
      | .structF _ _ => wfS rest
      | .packed w c _ =>
        c % 8 == 0 && c != 0 &&
          (if w == c then wfS rest else if w < c then wfRun rest w c else false)

/-- A schema whose head continues (and eventually exactly closes) an open
packed run: `off` bits of the container of width `c` are already consumed. -/
def wfRun : Schema → Nat → Nat → Bool
  | .cons _ (.packed w c' _) rest, off, c =>
    c' == c && (if off + w == c then wfS rest else if off + w < c then wfRun rest (off + w) c else false)
  | _, _, _ => false

end

/-- The nested schema of the canonical end-to-end scenario
(BinaryParserTester.test_hex_parser). -/
def sub_struct_format : Schema := Schema.ofList
  [("sub_field_1", .scalar 8),
   ("sub_field_2", .packed 7 16 none),
   ("sub_field_3", .packed 9 16 none),
   ("sub_field_4", .strF (7 * 8) none)]

/-- The outer schema of the canonical end-to-end scenario, including the two
handlers of the Python test (`lambda x: "ONE" if x == 1 else "NOT ONE"` on
field2 and `lambda x: x + 1` on field4). -/
def canonFields : Schema := Schema.ofList
  [("field1", .scalar 8),
   ("field2", .packed 5 8 (some (fun v => if v matches .num 1 then .str "ONE" else .str "NOT ONE"))),
   ("field3", .packed 3 8 none),
   ("field4", .packed 12 16 (some (fun v => match v with | .num n => .num (n + 1) | x => x))),
   ("field5", .packed 4 16 none),
   ("sub_struct_0", .structF sub_struct_format none),
   ("sub_struct_1", .structF sub_struct_format none),
   ("sub_struct_2", .structF sub_struct_format none),
   ("field6", .scalar 16),
   ("field7", .strF (7 * 8) none)]

/-- The hex payload of the canonical end-to-end scenario. -/
def canonHex : PyStr :=
  hexS ("8fe37156" ++ "f87ae5" ++ "31206162632031" ++ "a87ae3" ++ "32206162632032"
    ++ "f87ae5" ++ "33206162632033" ++ "11ff" ++ "55727567756179")

/-- Expected decoding of the first sub-record of the canonical scenario. -/
def canonSub0 : List (String × Value) :=
  [("sub_field_1", .num 0xf8), ("sub_field_2", .num 0x7a),
   ("sub_field_3", .num (2 * 0xe5)), ("sub_field_4", .str "1 abc 1")]

/-- Expected decoding of the second sub-record of the canonical scenario. -/
def canonSub1 : List (String × Value) :=
  [("sub_field_1", .num 0xa8), ("sub_field_2", .num 0x7a),
   ("sub_field_3", .num (2 * 0xe3)), ("sub_field_4", .str "2 abc 2")]

/-- Expected decoding of the third sub-record of the canonical scenario. -/
def canonSub2 : List (String × Value) :=
  [("sub_field_1", .num 0xf8), ("sub_field_2", .num 0x7a),
   ("sub_field_3", .num (2 * 0xe5)), ("sub_field_4", .str "3 abc 3")]

/-- Expected decoding of the canonical scenario. -/
def canonResult : List (String × Value) :=
  [("field1", .num 0x8f), ("field2", .str "NOT ONE"), ("field3", .num 0b111),
   ("field4", .num 0x672), ("field5", .num 0x5),
   ("sub_struct_0", .struct canonSub0), ("sub_struct_1", .struct canonSub1),
   ("sub_struct_2", .struct canonSub2),
   ("field6", .num 0xff11), ("field7", .str "Uruguay")]

/-! ## Theorems -/

/-- C2: decoding the canonical schema over the canonical hex payload yields
`field1 = 0x8f`, `field3 = 0b111`, `field4 = 0x672`, `field5 = 0x5`, the
three sub-records' `sub_field_4` equal to "1 abc 1", "2 abc 2", "3 abc 3"
respectively, `field6 = 0xff11` and `field7 = "Uruguay"`. -/
theorem c2_canonical_scenario :
    parse_struct_from_hex canonFields canonHex = .ok canonResult ∧
    canonResult.lookup "field1" = some (.num 0x8f) ∧
    canonResult.lookup "field3" = some (.num 0b111) ∧
    canonResult.lookup "field4" = some (.num 0x672) ∧
    canonResult.lookup "field5" = some (.num 0x5) ∧
    canonResult.lookup "sub_struct_0" = some (.struct canonSub0) ∧
    canonSub0.lookup "sub_field_4" = some (.str "1 abc 1") ∧
    canonResult.lookup "sub_struct_1" = some (.struct canonSub1) ∧
    canonSub1.lookup "sub_field_4" = some (.str "2 abc 2") ∧
    canonResult.lookup "sub_struct_2" = some (.struct canonSub2) ∧
    canonSub2.lookup "sub_field_4" = some (.str "3 abc 3") ∧
    canonResult.lookup "field6" = some (.num 0xff11) ∧
    canonResult.lookup "field7" = some (.str "Uruguay") :=
  ⟨rfl, rfl, rfl, rfl, rfl, rfl, rfl, rfl, rfl, rfl, rfl, rfl, rfl⟩

/-- C3: fields declared earlier in a container occupy the least-significant
bits: decoding `Packed(5, 8)` then `Packed(3, 8)` over hex "E3" yields
field-1 = 0x03 and field-2 = 0x07. -/
theorem c3_lsb_first_packing :
    parse_struct_from_hex
      (.cons "field-1" (.packed 5 8 none) (.cons "field-2" (.packed 3 8 none) .nil))
      (hexS "E3")
      = .ok [("field-1", .num 0x03), ("field-2", .num 0x07)] := rfl

/-- C4: endian normalization reverses byte order, not nibble order:
`convert_endianess "f135" = "35f1"`, and decoding a single 16-bit scalar
field over hex "f135" yields the integer 0x35f1. -/
theorem c4_endian_normalization :
    convert_endianess (hexS "f135") = hexS "35f1" ∧
    parse_struct_from_hex (.cons "f" (.scalar 16) .nil) (hexS "f135")
      = .ok [("f", .num 0x35f1)] :=
  ⟨rfl, rfl⟩

/-- C10: a callable third element of a field descriptor is applied to the
decoded value of the field regardless of its kind: a packed integer, the
hex text of an array field, the text of a string field and the nested
ordered mapping of a struct field are all passed through the handler before
being stored. -/
theorem c10_handler_applied_all_kinds (t : Value → Value) :
    parse_struct_from_hex (.cons "f" (.packed 8 8 (some t)) .nil) (hexS "ab")
      = .ok [("f", t (.num 0xab))] ∧
    parse_struct_from_hex (.cons "f" (.array 8 (some t)) .nil) (hexS "ab")
      = .ok [("f", t (.hexArr (hexS "ab")))] ∧
    parse_struct_from_hex (.cons "f" (.strF 8 (some t)) .nil) (hexS "ab")
      = .ok [("f", t (.str (String.mk [Char.ofNat 0xab])))] ∧
    parse_struct_from_hex (.cons "f" (.structF (.cons "x" (.scalar 8) .nil) (some t)) .nil) (hexS "ab")
      = .ok [("f", t (.struct [("x", .num 0xab)]))] :=
  ⟨rfl, rfl, rfl, rfl⟩

/-- C6, counterexample: a schema whose single run of packed widths sums to
strictly less than the container width, left under-filled at the end of the
schema, is accepted by `check_struct` (which returns 0, the sum of the
fully-closed containers), not rejected. -/
theorem c6_counterexample :
    check_struct (.cons "f" (.packed 5 8 none) .nil) = .ok 0 := rfl

/-- C7, counterexample: `check_struct` accepts a `Scalar(24)` field, whose
container width is a multiple of 8 outside {8, 16, 32}, returning its bit
length instead of failing. -/
theorem c7_counterexample :
    check_struct (.cons "f" (.scalar 24) .nil) = .ok 24 := rfl

/-- C8, counterexample: a field that declares a different container width
while the previous container is not fully consumed is accepted when the
accumulated offset plus the new width equals the new container width:
`Packed(5, 8)` followed by `Packed(11, 16)` passes `check_struct` with
total 16, with no alignment error. -/
theorem c8_counterexample :
    check_struct (.cons "a" (.packed 5 8 none) (.cons "b" (.packed 11 16 none) .nil))
      = .ok 16 := rfl

/-- C7, amended: `check_struct` rejects a `Scalar` field or `Packed`
container exactly when its container width is not a multiple of 8; a width
that is a multiple of 8 but outside {8, 16, 32}, such as 24, is accepted. -/
theorem c7_amended_multiple_of_8 (name : String) (w c p : Nat) (t : Option (Value → Value))
    (hw : w % 8 ≠ 0) (hc : c % 8 ≠ 0) :
    check_struct (.cons name (.scalar w) .nil) = .error (.notMultipleOf8 name) ∧
    check_struct (.cons name (.packed p c t) .nil) = .error (.notMultipleOf8 name) ∧
    check_struct (.cons name (.scalar 24) .nil) = .ok 24 ∧
    check_struct (.cons name (.packed 24 24 t) .nil) = .ok 24 := by
  refine ⟨?_, ?_, rfl, rfl⟩ <;> simp [check_struct, checkGo, checkD, hw, hc]

/-- Witness for the amended C7 theorem at width 12. -/
theorem c7_amended_multiple_of_8_witness :
    (12 % 8 ≠ 0) ∧
    (check_struct (.cons "f" (.scalar 12) .nil) = .error (.notMultipleOf8 "f") ∧
     check_struct (.cons "f" (.packed 5 12 none) .nil) = .error (.notMultipleOf8 "f") ∧
     check_struct (.cons "f" (.scalar 24) .nil) = .ok 24 ∧
     check_struct (.cons "f" (.packed 24 24 none) .nil) = .ok 24) :=
  ⟨by decide, c7_amended_multiple_of_8 "f" 12 12 5 none (by decide) (by decide)⟩

/-- C8, amended: when a field declares a container width different from the
one already open before that container is fully consumed, `check_struct`
fails with the alignment error exactly when the accumulated offset plus the
new field's width stays strictly below the newly declared container width;
when the accumulated offset plus the new field's width equals the newly
declared container width, the container is closed and no error is
raised. -/
theorem c8_amended_alignment (n1 n2 : String) (w1 c1 w2 w2e c2 : Nat)
    (t1 t2 : Option (Value → Value))
    (hw1 : 0 < w1) (hlt1 : w1 < c1) (hm1 : c1 % 8 = 0) (hm2 : c2 % 8 = 0)
    (hne : c1 ≠ c2) (hlt : w1 + w2 < c2) (heq : w1 + w2e = c2) :
    check_struct (.cons n1 (.packed w1 c1 t1) (.cons n2 (.packed w2 c2 t2) .nil))
      = .error (.changedContainer n2) ∧
    check_struct (.cons n1 (.packed w1 c1 t1) (.cons n2 (.packed w2e c2 t2) .nil))
      = .ok c2 := by
  constructor
  · simp only [check_struct, checkGo, checkD]
    rw [if_neg (show ¬(c1 % 8 ≠ 0) by omega),
        if_neg (show ¬(0 + w1 > c1) by omega),
        if_pos (show 0 + w1 < c1 by omega),
        if_neg (show ¬((0:Nat) ≠ 0 ∧ (0:Nat) ≠ c1) by simp),
        if_neg (show ¬(c2 % 8 ≠ 0) by omega),
        if_neg (show ¬(0 + w1 + w2 > c2) by omega),
        if_pos (show 0 + w1 + w2 < c2 by omega),
        if_pos (show (0:Nat) + w1 ≠ 0 ∧ c1 ≠ c2 from ⟨by omega, hne⟩)]
  · simp only [check_struct, checkGo, checkD]
    rw [if_neg (show ¬(c1 % 8 ≠ 0) by omega),
        if_neg (show ¬(0 + w1 > c1) by omega),
        if_pos (show 0 + w1 < c1 by omega),
        if_neg (show ¬((0:Nat) ≠ 0 ∧ (0:Nat) ≠ c1) by simp),
        if_neg (show ¬(c2 % 8 ≠ 0) by omega),
        if_neg (show ¬(0 + w1 + w2e > c2) by omega),
        if_neg (show ¬(0 + w1 + w2e < c2) by omega)]
    exact congrArg Except.ok (by omega)

/-- Witness for the amended C8 theorem: `Packed(5, 8)` followed by
`Packed(3, 16)` is rejected with the alignment error, while `Packed(5, 8)`
followed by `Packed(11, 16)` is accepted with total 16. -/
theorem c8_amended_alignment_witness :
    (0 < 5 ∧ 5 < 8 ∧ 8 % 8 = 0 ∧ 16 % 8 = 0 ∧ 8 ≠ 16 ∧ 5 + 3 < 16 ∧ 5 + 11 = 16) ∧
    (check_struct (.cons "a" (.packed 5 8 none) (.cons "b" (.packed 3 16 none) .nil))
       = .error (.changedContainer "b") ∧
     check_struct (.cons "a" (.packed 5 8 none) (.cons "b" (.packed 11 16 none) .nil))
       = .ok 16) :=
  ⟨by decide,
   c8_amended_alignment "a" "b" 5 8 3 11 16 none none (by decide) (by decide)
     (by decide) (by decide) (by decide) (by decide) (by decide)⟩

/-- Taking with a bound clamped to the length is plain taking. -/
theorem take_min_length (s : List α) (b : Nat) : s.take (min b s.length) = s.take b := by
  rcases Nat.le_total b s.length with h | h
  · rw [min_eq_left h]
  · rw [min_eq_right h, List.take_length, List.take_of_length_le h]

/-- Python slicing at nonnegative bounds is take-then-drop. -/
theorem pySlice_natCast (s : List α) (a b : Nat) :
    pySlice s (a : Int) (b : Int) = (s.take b).drop a := by
  unfold pySlice pyIdx
  rw [if_neg (by omega), if_neg (by omega)]
  simp only [Int.toNat_natCast]
  rw [take_min_length]
  rcases Nat.le_total a s.length with h | h
  · rw [min_eq_left h]
  · rw [min_eq_right h]
    have h1 : (s.take b).length ≤ s.length := by simp
    simp [List.drop_of_length_le h1, List.drop_of_length_le (h1.trans h)]

/-- Slicing two positions further into a two-longer list. -/
theorem pySlice_cons2 (a b : α) (t : List α) (x y : Nat) :
    pySlice (a :: b :: t) ((x + 2 : Nat) : Int) ((y + 2 : Nat) : Int)
      = pySlice t (x : Int) (y : Int) := by
  rw [pySlice_natCast, pySlice_natCast]
  simp [List.take_succ_cons, List.drop_succ_cons]

/-- Byte-pair reversal preserves length. -/
theorem pairRev_length : ∀ (s : List α), (pairRev s).length = s.length
  | [] => rfl
  | [_] => rfl
  | a :: b :: t => by
    show (pairRev t ++ [a, b]).length = t.length + 2
    simp [pairRev_length t]

/-- Byte-pair reversal moves a final pair to the front. -/
theorem pairRev_append_pair : ∀ (u : List α) (a b : α), u.length % 2 = 0 →
    pairRev (u ++ [a, b]) = a :: b :: pairRev u
  | [], _, _, _ => rfl
  | [_], _, _, h => by simp at h
  | x :: y :: t, a, b, h => by
    have ht : t.length % 2 = 0 := by simp [Nat.add_mod] at h; omega
    show pairRev (x :: y :: (t ++ [a, b])) = _
    have h1 : pairRev (x :: y :: (t ++ [a, b])) = pairRev (t ++ [a, b]) ++ [x, y] := rfl
    rw [h1, pairRev_append_pair t a b ht]
    rfl

/-- Byte-pair reversal is an involution on even-length lists. -/
theorem pairRev_pairRev : ∀ (s : List α), s.length % 2 = 0 → pairRev (pairRev s) = s
  | [], _ => rfl
  | [_], h => by simp at h
  | a :: b :: t, h => by
    have ht : t.length % 2 = 0 := by simp [Nat.add_mod] at h; omega
    have h1 : pairRev (a :: b :: t) = pairRev t ++ [a, b] := rfl
    rw [h1, pairRev_append_pair (pairRev t) a b (by rw [pairRev_length]; exact ht),
        pairRev_pairRev t ht]

/-- On an even-length string `convert_endianess` is exactly byte-pair
reversal. -/
theorem convert_endianess_eq_pairRev : ∀ (s : PyStr), s.length % 2 = 0 →
    convert_endianess s = pairRev s
  | [], _ => rfl
  | [_], h => by simp at h
  | a :: b :: t, h => by
    have hL : (a :: b :: t).length = t.length + 2 := by simp
    have ht : t.length % 2 = 0 := by omega
    have hpr : pairRev (a :: b :: t) = pairRev t ++ [a, b] := rfl
    rw [hpr, ← convert_endianess_eq_pairRev t ht]
    unfold convert_endianess
    have hn : (((a :: b :: t).length + 1) / 2) = ((t.length + 1) / 2) + 1 := by
      rw [hL]; omega
    rw [hn, List.range'_concat, List.foldl_append]
    simp only [List.foldl_cons, List.foldl_nil]
    congr 1
    · apply List.foldl_ext
      intro acc i hi
      obtain ⟨j, hj, rfl⟩ := List.mem_range'.mp hi
      have hj2 : 2 * j + 2 ≤ t.length := by omega
      have e1 : ((a :: b :: t).length : Int) - ((0 + 2 * j : Nat) : Int) - 2
          = (((t.length - 2 * j - 2) + 2 : Nat) : Int) := by
        rw [hL]; push_cast; omega
      have e2 : ((a :: b :: t).length : Int) - ((0 + 2 * j : Nat) : Int)
          = (((t.length - 2 * j) + 2 : Nat) : Int) := by
        rw [hL]; push_cast; omega
      have e3 : ((t.length : Int)) - ((0 + 2 * j : Nat) : Int) - 2
          = ((t.length - 2 * j - 2 : Nat) : Int) := by
        push_cast; omega
      have e4 : ((t.length : Int)) - ((0 + 2 * j : Nat) : Int)
          = ((t.length - 2 * j : Nat) : Int) := by
        push_cast; omega
      rw [e1, e2, e3, e4]
      have hc2 := pySlice_cons2 a b t (t.length - 2 * j - 2) (t.length - 2 * j)
      rw [hc2]
    · have e5 : ((a :: b :: t).length : Int) - ((0 + 2 * ((t.length + 1) / 2) : Nat) : Int) - 2
          = ((0 : Nat) : Int) := by
        rw [hL]; push_cast; omega
      have e6 : ((a :: b :: t).length : Int) - ((0 + 2 * ((t.length + 1) / 2) : Nat) : Int)
          = ((2 : Nat) : Int) := by
        rw [hL]; push_cast; omega
      rw [e5, e6, pySlice_natCast]
      rfl

/-- C9: `convert_endianess` is an involution on even-length hex strings, and
the identity on every 2-character (one-byte) input. -/
theorem c9_convert_endianess_involution :
    (∀ s : PyStr, s.length % 2 = 0 → convert_endianess (convert_endianess s) = s) ∧
    (∀ a b : Char, convert_endianess [a, b] = [a, b]) := by
  refine ⟨fun s h => ?_, fun a b => by rw [convert_endianess_eq_pairRev [a, b] (by simp)]; rfl⟩
  rw [convert_endianess_eq_pairRev s h,
      convert_endianess_eq_pairRev _ (by rw [pairRev_length]; exact h),
      pairRev_pairRev s h]

/-- Witness for C9 at the concrete even-length input "0f51". -/
theorem c9_convert_endianess_involution_witness :
    (hexS "0f51").length % 2 = 0 ∧
    convert_endianess (convert_endianess (hexS "0f51")) = hexS "0f51" :=
  ⟨by decide, c9_convert_endianess_involution.1 (hexS "0f51") (by decide)⟩
theorem schema_nil_append (T : Schema) : Schema.nil ++ T = T := rfl

theorem schema_cons_append (n : String) (d : FieldDesc) (r T : Schema) :
    (Schema.cons n d r) ++ T = Schema.cons n d (r ++ T) := rfl

theorem schema_append_nil : ∀ (S : Schema), S ++ Schema.nil = S
  | .nil => rfl
  | .cons n d r => by rw [schema_cons_append, schema_append_nil r]

theorem bits8 : ∀ (S : Schema),
    (wfS S = true → schemaBits S % 8 = 0) ∧
    (∀ off c, wfRun S off c = true → c % 8 = 0 → (schemaBits S + off) % 8 = 0)
  | .nil => ⟨fun _ => rfl, fun off c h => by simp [wfRun] at h⟩
  | .cons name (.scalar w) rest => by
    obtain ⟨ih1, _⟩ := bits8 rest
    refine ⟨fun hw => ?_, fun off c h _ => by simp [wfRun] at h⟩
    simp only [wfS, wfD, Bool.true_and, Bool.and_eq_true, beq_iff_eq, bne_iff_ne] at hw
    obtain ⟨⟨hm, _⟩, hrest⟩ := hw
    have := ih1 hrest
    simp only [schemaBits, descBits]
    omega
  | .cons name (.array n t) rest => by
    obtain ⟨ih1, _⟩ := bits8 rest
    refine ⟨fun hw => ?_, fun off c h _ => by simp [wfRun] at h⟩
    simp only [wfS, wfD, Bool.true_and, Bool.and_eq_true, beq_iff_eq] at hw
    obtain ⟨hm, hrest⟩ := hw
    have := ih1 hrest
    simp only [schemaBits, descBits]
    omega
  | .cons name (.strF n t) rest => by
    obtain ⟨ih1, _⟩ := bits8 rest
    refine ⟨fun hw => ?_, fun off c h _ => by simp [wfRun] at h⟩
    simp only [wfS, wfD, Bool.true_and, Bool.and_eq_true, beq_iff_eq] at hw
    obtain ⟨hm, hrest⟩ := hw
    have := ih1 hrest
    simp only [schemaBits, descBits]
    omega
  | .cons name (.structF sub t) rest => by
    obtain ⟨ih1, _⟩ := bits8 rest
    obtain ⟨ihs, _⟩ := bits8 sub
    refine ⟨fun hw => ?_, fun off c h _ => by simp [wfRun] at h⟩
    simp only [wfS, wfD, Bool.and_eq_true] at hw
    have h1 := ihs hw.1
    have h2 := ih1 hw.2
    simp only [schemaBits, descBits]
    omega
  | .cons name (.packed w c' t) rest => by
    obtain ⟨ih1, ih2⟩ := bits8 rest
    constructor
    · intro hw
      simp only [wfS, wfD, Bool.true_and, Bool.and_eq_true, beq_iff_eq, bne_iff_ne] at hw
      obtain ⟨⟨hm, hnz⟩, hif⟩ := hw
      simp only [schemaBits, descBits]
      split at hif
      · have := ih1 hif
        omega
      · split at hif
        · have := ih2 w c' hif hm
          omega
        · exact absurd hif (by simp)
    · intro off c h hc
      simp only [wfRun, Bool.and_eq_true, beq_iff_eq] at h
      obtain ⟨hcc, hif⟩ := h
      subst hcc
      simp only [schemaBits, descBits]
      split at hif
      · have := ih1 hif
        omega
      · split at hif
        · have := ih2 (off + w) c' hif hc
          omega
        · exact absurd hif (by simp)

theorem checkGo_wf : ∀ (S : Schema),
    (∀ (T : Schema) (total prev : Nat), wfS S = true →
      ∃ p', checkGo (S ++ T) total 0 prev = checkGo T (total + schemaBits S) 0 p') ∧
    (∀ (T : Schema) (total off c : Nat), wfRun S off c = true → c % 8 = 0 →
      ∃ p', checkGo (S ++ T) total off c = checkGo T (total + off + schemaBits S) 0 p')
  | .nil =>
    ⟨fun T total prev _ => ⟨prev, by simp [schema_nil_append, schemaBits]⟩,
     fun T total off c h => by simp [wfRun] at h⟩
  | .cons name (.scalar w) rest => by
    refine ⟨fun T total prev hw => ?_, fun T total off c h _ => by simp [wfRun] at h⟩
    simp only [wfS, wfD, Bool.true_and, Bool.and_eq_true, beq_iff_eq, bne_iff_ne] at hw
    obtain ⟨⟨hm, hnz⟩, hrest⟩ := hw
    obtain ⟨p', hp⟩ := (checkGo_wf rest).1 T (total + w) w hrest
    refine ⟨p', ?_⟩
    rw [schema_cons_append]
    simp only [checkGo, checkD, Nat.zero_add, eq_self_iff_true, if_true]
    rw [if_neg (show ¬(w % 8 ≠ 0) by omega),
        if_neg (show ¬(w > w) by omega),
        if_neg (show ¬(w < w) by omega),
        hp]
    congr 1
    simp only [schemaBits, descBits]
    omega
  | .cons name (.array n t) rest => by
    refine ⟨fun T total prev hw => ?_, fun T total off c h _ => by simp [wfRun] at h⟩
    simp only [wfS, wfD, Bool.true_and, Bool.and_eq_true, beq_iff_eq] at hw
    obtain ⟨hm, hrest⟩ := hw
    obtain ⟨p', hp⟩ := (checkGo_wf rest).1 T (total + n) n hrest
    refine ⟨p', ?_⟩
    rw [schema_cons_append]
    simp only [checkGo, checkD, Nat.zero_add]
    rw [if_neg (show ¬(n % 8 ≠ 0) by omega),
        if_neg (show ¬(n > n) by omega),
        if_neg (show ¬(n < n) by omega),
        hp]
    congr 1
    simp only [schemaBits, descBits]
    omega
  | .cons name (.strF n t) rest => by
    refine ⟨fun T total prev hw => ?_, fun T total off c h _ => by simp [wfRun] at h⟩
    simp only [wfS, wfD, Bool.true_and, Bool.and_eq_true, beq_iff_eq] at hw
    obtain ⟨hm, hrest⟩ := hw
    obtain ⟨p', hp⟩ := (checkGo_wf rest).1 T (total + n) n hrest
    refine ⟨p', ?_⟩
    rw [schema_cons_append]
    simp only [checkGo, checkD, Nat.zero_add]
    rw [if_neg (show ¬(n % 8 ≠ 0) by omega),
        if_neg (show ¬(n > n) by omega),
        if_neg (show ¬(n < n) by omega),
        hp]
    congr 1
    simp only [schemaBits, descBits]
    omega
  | .cons name (.structF sub t) rest => by
    refine ⟨fun T total prev hw => ?_, fun T total off c h _ => by simp [wfRun] at h⟩
    simp only [wfS, wfD, Bool.and_eq_true] at hw
    obtain ⟨hsub, hrest⟩ := hw
    have hm : schemaBits sub % 8 = 0 := (bits8 sub).1 hsub
    obtain ⟨q', hq⟩ := (checkGo_wf sub).1 Schema.nil 0 0 hsub
    rw [schema_append_nil] at hq
    have hsubeq : checkGo sub 0 0 0 = .ok (schemaBits sub) := by
      rw [hq]; simp [checkGo]
    obtain ⟨p', hp⟩ := (checkGo_wf rest).1 T (total + schemaBits sub) (schemaBits sub) hrest
    refine ⟨p', ?_⟩
    rw [schema_cons_append]
    simp only [checkGo, checkD, hsubeq, Nat.zero_add]
    rw [if_neg (show ¬(schemaBits sub % 8 ≠ 0) by omega),
        if_neg (show ¬(schemaBits sub > schemaBits sub) by omega),
        if_neg (show ¬(schemaBits sub < schemaBits sub) by omega),
        hp]
    congr 1
    simp only [schemaBits, descBits]
    omega
  | .cons name (.packed w c' t) rest => by
    constructor
    · intro T total prev hw
      simp only [wfS, wfD, Bool.true_and, Bool.and_eq_true, beq_iff_eq, bne_iff_ne] at hw
      obtain ⟨⟨hm, hnz⟩, hif⟩ := hw
      split at hif
      · next hwc =>
        subst hwc
        obtain ⟨p', hp⟩ := (checkGo_wf rest).1 T (total + w) w hif
        refine ⟨p', ?_⟩
        rw [schema_cons_append]
        simp only [checkGo, checkD, Nat.zero_add]
        rw [if_neg (show ¬(w % 8 ≠ 0) by omega),
            if_neg (show ¬(w > w) by omega),
            if_neg (show ¬(w < w) by omega),
            hp]
        congr 1
        simp only [schemaBits, descBits]
        omega
      · split at hif
        · next hne hlt =>
          obtain ⟨p', hp⟩ := (checkGo_wf rest).2 T total w c' hif hm
          refine ⟨p', ?_⟩
          rw [schema_cons_append]
          simp only [checkGo, checkD, Nat.zero_add]
          rw [if_neg (show ¬(c' % 8 ≠ 0) by omega),
              if_neg (show ¬(w > c') by omega),
              if_pos (show w < c' by omega),
              if_neg (show ¬((0:Nat) ≠ 0 ∧ prev ≠ c') by simp),
              hp]
          congr 1
          simp only [schemaBits, descBits]
          omega
        · exact absurd hif (by simp)
    · intro T total off c h hc
      simp only [wfRun, Bool.and_eq_true, beq_iff_eq] at h
      obtain ⟨hcc, hif⟩ := h
      subst hcc
      split at hif
      · next heq =>
        obtain ⟨p', hp⟩ := (checkGo_wf rest).1 T (total + (off + w)) c' hif
        refine ⟨p', ?_⟩
        rw [schema_cons_append]
        simp only [checkGo, checkD, Nat.zero_add]
        rw [if_neg (show ¬(c' % 8 ≠ 0) by omega),
            if_neg (show ¬(off + w > c') by omega),
            if_neg (show ¬(off + w < c') by omega),
            hp]
        congr 1
        simp only [schemaBits, descBits]
        omega
      · split at hif
        · next hne hlt =>
          obtain ⟨p', hp⟩ := (checkGo_wf rest).2 T total (off + w) c' hif hc
          refine ⟨p', ?_⟩
          rw [schema_cons_append]
          simp only [checkGo, checkD, Nat.zero_add]
          rw [if_neg (show ¬(c' % 8 ≠ 0) by omega),
              if_neg (show ¬(off + w > c') by omega),
              if_pos (show off + w < c' by omega),
              if_neg (show ¬(off ≠ 0 ∧ c' ≠ c') by simp),
              hp]
          congr 1
          simp only [schemaBits, descBits]
          omega
        · exact absurd hif (by simp)

theorem check_struct_of_wfS (S : Schema) (hw : wfS S = true) :
    check_struct S = .ok (schemaBits S) := by
  obtain ⟨p', hp⟩ := (checkGo_wf S).1 Schema.nil 0 0 hw
  rw [schema_append_nil] at hp
  rw [check_struct, hp]
  simp [checkGo]

/-- C6, amended: a run of consecutive `Packed`/`Scalar` widths summing to
strictly less than the declared container width is not always rejected:
left under-filled at the very end of the schema, the run is accepted, and
`check_struct` returns only the total of the fully-closed containers, the
trailing open run contributing nothing. -/
theorem c6_amended_trailing_underfill (S : Schema) (name : String) (w c : Nat)
    (t : Option (Value → Value)) (hwf : wfS S = true) (hlt : w < c) (hm : c % 8 = 0) :
    check_struct (S ++ .cons name (.packed w c t) .nil) = .ok (schemaBits S) := by
  obtain ⟨p', hp⟩ := (checkGo_wf S).1 (.cons name (.packed w c t) .nil) 0 0 hwf
  rw [check_struct, hp]
  simp only [checkGo, checkD, Nat.zero_add]
  rw [if_neg (show ¬(c % 8 ≠ 0) by omega),
      if_neg (show ¬(w > c) by omega),
      if_pos (show w < c by omega),
      if_neg (show ¬((0:Nat) ≠ 0 ∧ p' ≠ c) by simp)]

/-- Witness for the amended C6 theorem: a closed 8-bit scalar followed by a
trailing `Packed(5, 8)` run yields total 8 with no error. -/
theorem c6_amended_trailing_underfill_witness :
    (wfS (.cons "a" (.scalar 8) .nil) = true ∧ 5 < 8 ∧ 8 % 8 = 0) ∧
    check_struct ((Schema.cons "a" (.scalar 8) .nil) ++ .cons "f" (.packed 5 8 none) .nil)
      = .ok (schemaBits (.cons "a" (.scalar 8) .nil)) :=
  ⟨⟨by decide, by decide, by decide⟩,
   c6_amended_trailing_underfill (.cons "a" (.scalar 8) .nil) "f" 5 8 none
     (by decide) (by decide) (by decide)⟩
theorem int16Core_isSome : ∀ (s : PyStr) (acc : Nat), s.all hexOk = true →
    (int16Core s acc).isSome = true
  | [], _, _ => rfl
  | c :: rest, acc, h => by
    simp only [List.all_cons, Bool.and_eq_true] at h
    have hc := h.1
    simp only [hexOk, Option.isSome] at hc
    simp only [int16Core]
    cases hd : hexDigitVal c with
    | none => rw [hd] at hc; simp at hc
    | some d => exact int16Core_isSome rest (16 * acc + d) h.2

theorem int16_isSome (s : PyStr) (hne : s ≠ []) (h : s.all hexOk = true) :
    (int16 s).isSome = true := by
  rw [int16, if_neg (by simpa using hne)]
  exact int16Core_isSome s 0 h

theorem pairRev_mem : ∀ (s : List α) (x : α), x ∈ pairRev s ↔ x ∈ s
  | [], _ => Iff.rfl
  | [_], _ => Iff.rfl
  | a :: b :: t, x => by
    have h1 : pairRev (a :: b :: t) = pairRev t ++ [a, b] := rfl
    rw [h1]
    simp [pairRev_mem t x]
    tauto

theorem convert_mem (s : PyStr) (he : s.length % 2 = 0) (x : Char) :
    x ∈ convert_endianess s ↔ x ∈ s := by
  rw [convert_endianess_eq_pairRev s he]
  exact pairRev_mem s x

theorem convert_length (s : PyStr) (he : s.length % 2 = 0) :
    (convert_endianess s).length = s.length := by
  rw [convert_endianess_eq_pairRev s he]
  exact pairRev_length s

theorem slice_length (H : List α) (a b : Nat) (hab : a ≤ b) (hb : b ≤ H.length) :
    (pySlice H (a : Int) (b : Int)).length = b - a := by
  rw [pySlice_natCast]
  simp only [List.length_drop, List.length_take]
  omega

theorem slice_subset (H : List α) (a b : Nat) (x : α)
    (hx : x ∈ pySlice H (a : Int) (b : Int)) : x ∈ H := by
  rw [pySlice_natCast] at hx
  exact List.take_subset _ _ (List.drop_subset _ _ hx)

theorem slice_all_hexOk (H : PyStr) (a b : Nat) (hhex : H.all hexOk = true) :
    (pySlice H (a : Int) (b : Int)).all hexOk = true := by
  rw [List.all_eq_true] at *
  exact fun x hx => hhex x (slice_subset H a b x hx)

theorem h2cs_aux_isSome (s : PyStr) : ∀ (l : List Nat) (acc : Option String),
    acc.isSome = true → (∀ nn ∈ l, (get_byte_from_hex nn s).isSome = true) →
    (l.foldl
      (fun acc byte_n =>
        match acc with
        | none => none
        | some str =>
          match get_byte_from_hex byte_n s with
          | none => none
          | some b => some (str.push (Char.ofNat b)))
      acc).isSome = true
  | [], acc, ha, _ => ha
  | nn :: l, acc, ha, hl => by
    simp only [List.foldl_cons]
    cases hacc : acc with
    | none => rw [hacc] at ha; simp at ha
    | some str =>
      cases hb : get_byte_from_hex nn s with
      | none =>
        have := hl nn (by simp)
        rw [hb] at this; simp at this
      | some b =>
        exact h2cs_aux_isSome s l (some (str.push (Char.ofNat b))) rfl
          (fun m hm => hl m (by simp [hm]))

theorem get_byte_isSome (s : PyStr) (nn : Nat) (hhex : s.all hexOk = true)
    (hlt : 2 * nn + 2 ≤ s.length) : (get_byte_from_hex nn s).isSome = true := by
  rw [get_byte_from_hex]
  apply int16_isSome
  · have h2 : 2 * (nn + 1) = 2 * nn + 2 := by omega
    have := slice_length s (2 * nn) (2 * (nn + 1)) (by omega) (by omega)
    intro hcon
    rw [hcon] at this
    simp at this
    omega
  · exact slice_all_hexOk s _ _ hhex

theorem h2cs_isSome (s : PyStr) (he : s.length % 2 = 0) (hhex : s.all hexOk = true) :
    (hex_string_to_char_string s).isSome = true := by
  rw [hex_string_to_char_string]
  apply h2cs_aux_isSome s (List.range (s.length / 2)) (some "") rfl
  intro nn hnn
  rw [List.mem_range] at hnn
  exact get_byte_isSome s nn hhex (by omega)
/-- A nonempty, even, in-bounds slice of a hex-digit string still parses as
an integer after endian conversion. -/
theorem convert_slice_int16_isSome (H : PyStr) (a b : Nat)
    (hhex : H.all hexOk = true) (hab : a < b) (hb : b ≤ H.length)
    (heven : (b - a) % 2 = 0) :
    (int16 (convert_endianess (pySlice H (a : Int) (b : Int)))).isSome = true := by
  have hlen := slice_length H a b (by omega) hb
  have heven' : (pySlice H (a : Int) (b : Int)).length % 2 = 0 := by rw [hlen]; omega
  apply int16_isSome
  · intro hcon
    have := convert_length (pySlice H (a : Int) (b : Int)) heven'
    rw [hcon] at this
    simp at this
    omega
  · rw [List.all_eq_true]
    intro x hx
    have hx2 := (convert_mem _ heven' x).mp hx
    have hx3 := slice_subset H a b x hx2
    exact (List.all_eq_true.mp hhex) x hx3

/-- Bit extraction succeeds whenever the container text parses as an
integer. -/
theorem extract_some_of_int16 (s : PyStr) (st ln : Nat)
    (h : (int16 s).isSome = true) :
    ∃ v, extract_value_from_hex s st ln = some v := by
  rw [extract_value_from_hex]
  cases hin : int16 s with
  | none => rw [hin] at h; simp at h
  | some v => exact ⟨_, rfl⟩

/-- The fields of an open run sum to at least the missing part of the
container. -/
theorem wfRun_le_bits : ∀ (S : Schema) (off c : Nat), wfRun S off c = true →
    c ≤ off + schemaBits S
  | .nil, off, c => by simp [wfRun]
  | .cons _ (.scalar _) _, off, c => by simp [wfRun]
  | .cons _ (.array _ _) _, off, c => by simp [wfRun]
  | .cons _ (.strF _ _) _, off, c => by simp [wfRun]
  | .cons _ (.structF _ _) _, off, c => by simp [wfRun]
  | .cons name (.packed w c' t) rest, off, c => by
    intro h
    simp only [wfRun, Bool.and_eq_true, beq_iff_eq] at h
    obtain ⟨hcc, hif⟩ := h
    subst hcc
    have hbits : schemaBits (Schema.cons name (.packed w c' t) rest) = w + schemaBits rest := rfl
    rw [hbits]
    split at hif
    · omega
    · split at hif
      · have := wfRun_le_bits rest (off + w) c' hif
        omega
      · exact absurd hif (by simp)

/-- The decoding loop of `parse_struct_from_hex` succeeds on every
well-formed schema when the input provides exactly the declared bits:
part one starts at a container boundary, part two inside an open packed
run.  The loop consumes `schemaBits` bits of cursor, appends one entry per
field and ends at a container boundary. -/
theorem goS_wf : ∀ (S : Schema),
    (∀ (H : PyStr) (cursor off : Nat) (cont : PyStr) (acc : List (String × Value)),
      wfS S = true → H.all hexOk = true → H.length % 2 = 0 → cursor % 8 = 0 →
      cursor + schemaBits S ≤ 4 * H.length →
      ∃ tail off2 cont2, goS S H cursor off true cont acc
          = .ok (acc ++ tail, cursor + schemaBits S, off2, true, cont2) ∧
        tail.length = S.length) ∧
    (∀ (H : PyStr) (cursor off c : Nat) (cont : PyStr) (acc : List (String × Value)),
      wfRun S off c = true → c % 8 = 0 → H.all hexOk = true → H.length % 2 = 0 →
      cursor % 8 = 0 → (int16 cont).isSome = true →
      cursor + off + schemaBits S ≤ 4 * H.length + c →
      ∃ tail cur2 off2 cont2, goS S H cursor off false cont acc
          = .ok (acc ++ tail, cur2, off2, true, cont2) ∧
        tail.length = S.length ∧ cur2 + c = cursor + off + schemaBits S)
  | .nil =>
    ⟨fun H cursor off cont acc _ _ _ _ _ =>
      ⟨[], off, cont, by simp [goS, schemaBits], rfl⟩,
     fun H cursor off c cont acc h => by simp [wfRun] at h⟩
  | .cons name (.scalar w) rest => by
    refine ⟨fun H cursor off cont acc hw hhex heven hcur hres => ?_,
      fun H cursor off c cont acc h _ _ _ _ _ _ => by simp [wfRun] at h⟩
    simp only [wfS, wfD, Bool.true_and, Bool.and_eq_true, beq_iff_eq, bne_iff_ne] at hw
    obtain ⟨⟨hm, hnz⟩, hrest⟩ := hw
    have hbits : schemaBits (Schema.cons name (.scalar w) rest) = w + schemaBits rest := rfl
    rw [hbits] at hres
    have hint := convert_slice_int16_isSome H (cursor / 4) (cursor / 4 + w / 4) hhex
      (by omega) (by omega) (by omega)
    obtain ⟨vx, hvx⟩ := extract_some_of_int16 _ 0 w hint
    have hfs : fieldStep (.scalar w) H cursor off true cont
        = .ok (.num vx, cursor + w, 0 + w, (0 + w == w),
            convert_endianess (pySlice H ((cursor / 4 : Nat) : Int) ((cursor / 4 + w / 4 : Nat) : Int))) := by
      simp only [fieldStep, if_true, FieldDesc.handlerOf, hvx]
    obtain ⟨tail, off2, cont2, htail, hlen⟩ := (goS_wf rest).1 H (cursor + w) (0 + w)
      (convert_endianess (pySlice H ((cursor / 4 : Nat) : Int) ((cursor / 4 + w / 4 : Nat) : Int)))
      (acc ++ [(name, Value.num vx)]) hrest hhex heven (by omega) (by omega)
    refine ⟨(name, Value.num vx) :: tail, off2, cont2, ?_, by simp [Schema.length, hlen]⟩
    simp only [goS, hfs]
    rw [show ((0 + w == w) : Bool) = true by simp]
    rw [htail, hbits]
    have e1 : acc ++ [(name, Value.num vx)] ++ tail = acc ++ ((name, Value.num vx) :: tail) := by
      simp
    have e2 : cursor + w + schemaBits rest = cursor + (w + schemaBits rest) := by omega
    rw [e1, e2]
  | .cons name (.array n t) rest => by
    refine ⟨fun H cursor off cont acc hw hhex heven hcur hres => ?_,
      fun H cursor off c cont acc h _ _ _ _ _ _ => by simp [wfRun] at h⟩
    simp only [wfS, wfD, Bool.true_and, Bool.and_eq_true, beq_iff_eq] at hw
    obtain ⟨hm, hrest⟩ := hw
    have hbits : schemaBits (Schema.cons name (.array n t) rest) = n + schemaBits rest := rfl
    rw [hbits] at hres
    obtain ⟨v, hfs⟩ : ∃ v, fieldStep (.array n t) H cursor off true cont
        = .ok (v, cursor + n, 0 + n, (0 + n == n),
            pySlice H ((cursor / 4 : Nat) : Int) ((cursor / 4 + n / 4 : Nat) : Int)) := by
      cases t with
      | none => exact ⟨_, by simp only [fieldStep, if_true, FieldDesc.handlerOf]; rfl⟩
      | some f => exact ⟨_, by simp only [fieldStep, if_true, FieldDesc.handlerOf]; rfl⟩
    obtain ⟨tail, off2, cont2, htail, hlen⟩ := (goS_wf rest).1 H (cursor + n) (0 + n)
      (pySlice H ((cursor / 4 : Nat) : Int) ((cursor / 4 + n / 4 : Nat) : Int))
      (acc ++ [(name, v)]) hrest hhex heven (by omega) (by omega)
    refine ⟨(name, v) :: tail, off2, cont2, ?_, by simp [Schema.length, hlen]⟩
    simp only [goS, hfs]
    rw [show ((0 + n == n) : Bool) = true by simp]
    rw [htail, hbits]
    have e1 : acc ++ [(name, v)] ++ tail = acc ++ ((name, v) :: tail) := by simp
    have e2 : cursor + n + schemaBits rest = cursor + (n + schemaBits rest) := by omega
    rw [e1, e2]
  | .cons name (.strF n t) rest => by
    refine ⟨fun H cursor off cont acc hw hhex heven hcur hres => ?_,
      fun H cursor off c cont acc h _ _ _ _ _ _ => by simp [wfRun] at h⟩
    simp only [wfS, wfD, Bool.true_and, Bool.and_eq_true, beq_iff_eq] at hw
    obtain ⟨hm, hrest⟩ := hw
    have hbits : schemaBits (Schema.cons name (.strF n t) rest) = n + schemaBits rest := rfl
    rw [hbits] at hres
    have hsl_len : (pySlice H ((cursor / 4 : Nat) : Int) ((cursor / 4 + n / 4 : Nat) : Int)).length
        = n / 4 := by
      have := slice_length H (cursor / 4) (cursor / 4 + n / 4) (by omega) (by omega)
      rw [this]; omega
    have hstr0 := h2cs_isSome (pySlice H ((cursor / 4 : Nat) : Int) ((cursor / 4 + n / 4 : Nat) : Int))
      (by rw [hsl_len]; omega) (slice_all_hexOk H _ _ hhex)
    obtain ⟨str, hstr⟩ := Option.isSome_iff_exists.mp hstr0
    obtain ⟨v, hfs⟩ : ∃ v, fieldStep (.strF n t) H cursor off true cont
        = .ok (v, cursor + n, 0 + n, (0 + n == n),
            pySlice H ((cursor / 4 : Nat) : Int) ((cursor / 4 + n / 4 : Nat) : Int)) := by
      cases t with
      | none => exact ⟨_, by simp only [fieldStep, if_true, FieldDesc.handlerOf, hstr]; rfl⟩
      | some f => exact ⟨_, by simp only [fieldStep, if_true, FieldDesc.handlerOf, hstr]; rfl⟩
    obtain ⟨tail, off2, cont2, htail, hlen⟩ := (goS_wf rest).1 H (cursor + n) (0 + n)
      (pySlice H ((cursor / 4 : Nat) : Int) ((cursor / 4 + n / 4 : Nat) : Int))
      (acc ++ [(name, v)]) hrest hhex heven (by omega) (by omega)
    refine ⟨(name, v) :: tail, off2, cont2, ?_, by simp [Schema.length, hlen]⟩
    simp only [goS, hfs]
    rw [show ((0 + n == n) : Bool) = true by simp]
    rw [htail, hbits]
    have e1 : acc ++ [(name, v)] ++ tail = acc ++ ((name, v) :: tail) := by simp
    have e2 : cursor + n + schemaBits rest = cursor + (n + schemaBits rest) := by omega
    rw [e1, e2]
  | .cons name (.structF sub t) rest => by
    refine ⟨fun H cursor off cont acc hw hhex heven hcur hres => ?_,
      fun H cursor off c cont acc h _ _ _ _ _ _ => by simp [wfRun] at h⟩
    simp only [wfS, wfD, Bool.and_eq_true] at hw
    obtain ⟨hsub, hrest⟩ := hw
    have hm : schemaBits sub % 8 = 0 := (bits8 sub).1 hsub
    have hcs : check_struct sub = .ok (schemaBits sub) := check_struct_of_wfS sub hsub
    have hbits : schemaBits (Schema.cons name (.structF sub t) rest)
        = schemaBits sub + schemaBits rest := rfl
    rw [hbits] at hres
    have hsl_len : (pySlice H ((cursor / 4 : Nat) : Int)
        ((cursor / 4 + schemaBits sub / 4 : Nat) : Int)).length = schemaBits sub / 4 := by
      have := slice_length H (cursor / 4) (cursor / 4 + schemaBits sub / 4) (by omega) (by omega)
      rw [this]; omega
    obtain ⟨stail, soff2, scont2, hstail, hslen⟩ := (goS_wf sub).1
      (pySlice H ((cursor / 4 : Nat) : Int) ((cursor / 4 + schemaBits sub / 4 : Nat) : Int))
      0 0 [] [] hsub (slice_all_hexOk H _ _ hhex) (by rw [hsl_len]; omega) (by omega)
      (by rw [hsl_len]; omega)
    obtain ⟨v, hfs⟩ : ∃ v, fieldStep (.structF sub t) H cursor off true cont
        = .ok (v, cursor + schemaBits sub, 0 + schemaBits sub, (0 + schemaBits sub == schemaBits sub),
            pySlice H ((cursor / 4 : Nat) : Int) ((cursor / 4 + schemaBits sub / 4 : Nat) : Int)) := by
      rw [List.nil_append] at hstail
      cases t with
      | none =>
        refine ⟨Value.struct stail, ?_⟩
        simp only [fieldStep, if_true, FieldDesc.handlerOf, hcs]
        rw [if_neg (show ¬((pySlice H ((cursor / 4 : Nat) : Int)
            ((cursor / 4 + schemaBits sub / 4 : Nat) : Int)).length % 2 ≠ 0) by rw [hsl_len]; omega)]
        rw [if_neg (show ¬(schemaBits sub ≠ (pySlice H ((cursor / 4 : Nat) : Int)
            ((cursor / 4 + schemaBits sub / 4 : Nat) : Int)).length * 4) by rw [hsl_len]; omega)]
        rw [hstail]
      | some f =>
        refine ⟨f (Value.struct stail), ?_⟩
        simp only [fieldStep, if_true, FieldDesc.handlerOf, hcs]
        rw [if_neg (show ¬((pySlice H ((cursor / 4 : Nat) : Int)
            ((cursor / 4 + schemaBits sub / 4 : Nat) : Int)).length % 2 ≠ 0) by rw [hsl_len]; omega)]
        rw [if_neg (show ¬(schemaBits sub ≠ (pySlice H ((cursor / 4 : Nat) : Int)
            ((cursor / 4 + schemaBits sub / 4 : Nat) : Int)).length * 4) by rw [hsl_len]; omega)]
        rw [hstail]
    obtain ⟨tail, off2, cont2, htail, hlen⟩ := (goS_wf rest).1 H (cursor + schemaBits sub)
      (0 + schemaBits sub)
      (pySlice H ((cursor / 4 : Nat) : Int) ((cursor / 4 + schemaBits sub / 4 : Nat) : Int))
      (acc ++ [(name, v)]) hrest hhex heven (by omega) (by omega)
    refine ⟨(name, v) :: tail, off2, cont2, ?_, by simp [Schema.length, hlen]⟩
    simp only [goS, hfs]
    rw [show ((0 + schemaBits sub == schemaBits sub) : Bool) = true by simp]
    rw [htail, hbits]
    have e1 : acc ++ [(name, v)] ++ tail = acc ++ ((name, v) :: tail) := by simp
    have e2 : cursor + schemaBits sub + schemaBits rest
        = cursor + (schemaBits sub + schemaBits rest) := by omega
    rw [e1, e2]
  | .cons name (.packed w c' t) rest => by
    constructor
    · intro H cursor off cont acc hw hhex heven hcur hres
      simp only [wfS, wfD, Bool.true_and, Bool.and_eq_true, beq_iff_eq, bne_iff_ne] at hw
      obtain ⟨⟨hm, hnz⟩, hif⟩ := hw
      have hbits : schemaBits (Schema.cons name (.packed w c' t) rest) = w + schemaBits rest := rfl
      rw [hbits] at hres
      have hint := convert_slice_int16_isSome H (cursor / 4) (cursor / 4 + c' / 4) hhex
        (by omega) ?hbbound (by omega)
      case hbbound =>
        split at hif
        · next hwc => subst hwc; omega
        · split at hif
          · next hlt =>
            have hrb := wfRun_le_bits rest w c' hif
            omega
          · exact absurd hif (by simp)
      obtain ⟨vx, hvx⟩ := extract_some_of_int16 _ 0 w hint
      obtain ⟨v, hfs⟩ : ∃ v, fieldStep (.packed w c' t) H cursor off true cont
          = .ok (v, cursor + c', 0 + w, (0 + w == c'),
              convert_endianess (pySlice H ((cursor / 4 : Nat) : Int) ((cursor / 4 + c' / 4 : Nat) : Int))) := by
        cases t with
        | none => exact ⟨_, by simp only [fieldStep, if_true, FieldDesc.handlerOf, hvx]; rfl⟩
        | some f => exact ⟨_, by simp only [fieldStep, if_true, FieldDesc.handlerOf, hvx]; rfl⟩
      split at hif
      · next hwc =>
        subst hwc
        obtain ⟨tail, off2, cont2, htail, hlen⟩ := (goS_wf rest).1 H (cursor + w) (0 + w)
          (convert_endianess (pySlice H ((cursor / 4 : Nat) : Int) ((cursor / 4 + w / 4 : Nat) : Int)))
          (acc ++ [(name, v)]) hif hhex heven (by omega) (by omega)
        refine ⟨(name, v) :: tail, off2, cont2, ?_, by simp [Schema.length, hlen]⟩
        simp only [goS, hfs]
        rw [show ((0 + w == w) : Bool) = true by simp]
        rw [htail, hbits]
        have e1 : acc ++ [(name, v)] ++ tail = acc ++ ((name, v) :: tail) := by simp
        have e2 : cursor + w + schemaBits rest = cursor + (w + schemaBits rest) := by omega
        rw [e1, e2]
      · split at hif
        · next hne hlt =>
          obtain ⟨tail, cur2, off2, cont2, htail, hlen, hcur2⟩ := (goS_wf rest).2 H
            (cursor + c') w c'
            (convert_endianess (pySlice H ((cursor / 4 : Nat) : Int) ((cursor / 4 + c' / 4 : Nat) : Int)))
            (acc ++ [(name, v)]) hif hm hhex heven (by omega) hint (by omega)
          refine ⟨(name, v) :: tail, off2, cont2, ?_, by simp [Schema.length, hlen]⟩
          simp only [goS, hfs]
          rw [show ((0 + w == c') : Bool) = false by simp [Nat.zero_add]; omega]
          rw [show (0 + w) = w by omega]
          rw [htail, hbits]
          have e1 : acc ++ [(name, v)] ++ tail = acc ++ ((name, v) :: tail) := by simp
          have e2 : cur2 = cursor + (w + schemaBits rest) := by omega
          rw [e1, e2]
        · exact absurd hif (by simp)
    · intro H cursor off c cont acc h hc hhex heven hcur hint hres
      simp only [wfRun, Bool.and_eq_true, beq_iff_eq] at h
      obtain ⟨hcc, hif⟩ := h
      subst hcc
      have hbits : schemaBits (Schema.cons name (.packed w c' t) rest) = w + schemaBits rest := rfl
      rw [hbits] at hres
      obtain ⟨vx, hvx⟩ := extract_some_of_int16 cont off w hint
      obtain ⟨v, hfs⟩ : ∃ v, fieldStep (.packed w c' t) H cursor off false cont
          = .ok (v, cursor, off + w, (off + w == c'), cont) := by
        cases t with
        | none => exact ⟨_, by simp only [fieldStep, if_false, Bool.false_eq_true, FieldDesc.handlerOf, hvx]; rfl⟩
        | some f => exact ⟨_, by simp only [fieldStep, if_false, Bool.false_eq_true, FieldDesc.handlerOf, hvx]; rfl⟩
      split at hif
      · next heq =>
        obtain ⟨tail, off2, cont2, htail, hlen⟩ := (goS_wf rest).1 H cursor (off + w)
          cont (acc ++ [(name, v)]) hif hhex heven hcur (by omega)
        refine ⟨(name, v) :: tail, cursor + schemaBits rest, off2, cont2, ?_,
          by simp [Schema.length, hlen], by omega⟩
        simp only [goS, hfs]
        rw [show ((off + w == c') : Bool) = true by simp; omega]
        rw [htail]
        have e1 : acc ++ [(name, v)] ++ tail = acc ++ ((name, v) :: tail) := by simp
        rw [e1]
      · split at hif
        · next hne hlt =>
          obtain ⟨tail, cur2, off2, cont2, htail, hlen, hcur2⟩ := (goS_wf rest).2 H
            cursor (off + w) c' cont (acc ++ [(name, v)]) hif hc hhex heven hcur hint (by omega)
          refine ⟨(name, v) :: tail, cur2, off2, cont2, ?_,
            by simp [Schema.length, hlen], by omega⟩
          simp only [goS, hfs]
          rw [show ((off + w == c') : Bool) = false by simp; omega]
          rw [htail]
          have e1 : acc ++ [(name, v)] ++ tail = acc ++ ((name, v) :: tail) := by simp
          rw [e1]
        · exact absurd hif (by simp)

/-- `parse_struct_from_hex` succeeds on a well-formed schema and a
hex-digit string of exactly the declared length. -/
theorem parse_wf (S : Schema) (H : PyStr) (hwf : wfS S = true) (hhex : H.all hexOk = true)
    (heven : H.length % 2 = 0) (hlen : 4 * H.length = schemaBits S) :
    ∃ r, parse_struct_from_hex S H = .ok r := by
  obtain ⟨tail, off2, cont2, htail, _⟩ := (goS_wf S).1 H 0 0 [] [] hwf hhex heven rfl (by omega)
  rw [List.nil_append] at htail
  refine ⟨tail, ?_⟩
  rw [parse_struct_from_hex, if_neg (by omega), check_struct_of_wfS S hwf]
  dsimp only
  rw [if_neg (show ¬(schemaBits S ≠ H.length * 4) by omega), htail]

/-- C1: for every well-formed schema S (the specification's data-model
invariants, modelled by `wfS`, which is deliberately more liberal than the
specification's {8,16,32} restriction) and every hex string H,
`parse_struct_from_hex S H` succeeds if and only if `len(H)` is even and
`4 * len(H)` equals `check_struct S`; when either condition fails the call
fails with the corresponding length error, thrown before the field loop
runs, so no field is decoded and no partial result is produced. -/
theorem c1_decode_succeeds_iff (S : Schema) (H : PyStr)
    (hwf : wfS S = true) (hhex : H.all hexOk = true) :
    ((∃ r, parse_struct_from_hex S H = .ok r) ↔
      (H.length % 2 = 0 ∧ check_struct S = .ok (4 * H.length))) ∧
    (H.length % 2 ≠ 0 → parse_struct_from_hex S H = .error .oddLength) ∧
    (H.length % 2 = 0 → check_struct S ≠ .ok (4 * H.length) →
      parse_struct_from_hex S H = .error .lengthMismatch) := by
  have hcs := check_struct_of_wfS S hwf
  have hodd : H.length % 2 ≠ 0 → parse_struct_from_hex S H = .error .oddLength := by
    intro h
    rw [parse_struct_from_hex, if_pos h]
  have hmis : H.length % 2 = 0 → check_struct S ≠ .ok (4 * H.length) →
      parse_struct_from_hex S H = .error .lengthMismatch := by
    intro heven hne
    have hbne : schemaBits S ≠ 4 * H.length := by
      intro hx
      exact hne (by rw [hcs, hx])
    rw [parse_struct_from_hex, if_neg (by omega), hcs]
    dsimp only
    rw [if_pos (show schemaBits S ≠ H.length * 4 by omega)]
  refine ⟨⟨?_, ?_⟩, hodd, hmis⟩
  · rintro ⟨r, hr⟩
    by_cases heven : H.length % 2 = 0
    · refine ⟨heven, ?_⟩
      by_contra hne
      rw [hmis heven hne] at hr
      exact absurd hr (by simp)
    · rw [hodd heven] at hr
      exact absurd hr (by simp)
  · rintro ⟨heven, hcheck⟩
    rw [hcs] at hcheck
    simp only [Except.ok.injEq] at hcheck
    exact parse_wf S H hwf hhex heven (by omega)

/-- Witness for C1 at the two-packed-field schema over hex "E3". -/
theorem c1_decode_succeeds_iff_witness :
    (wfS (.cons "f1" (.packed 5 8 none) (.cons "f2" (.packed 3 8 none) .nil)) = true ∧
     (hexS "E3").all hexOk = true) ∧
    (((∃ r, parse_struct_from_hex
        (.cons "f1" (.packed 5 8 none) (.cons "f2" (.packed 3 8 none) .nil)) (hexS "E3")
          = .ok r) ↔
      ((hexS "E3").length % 2 = 0 ∧
       check_struct (.cons "f1" (.packed 5 8 none) (.cons "f2" (.packed 3 8 none) .nil))
         = .ok (4 * (hexS "E3").length))) ∧
     ((hexS "E3").length % 2 ≠ 0 →
       parse_struct_from_hex
         (.cons "f1" (.packed 5 8 none) (.cons "f2" (.packed 3 8 none) .nil)) (hexS "E3")
           = .error .oddLength) ∧
     ((hexS "E3").length % 2 = 0 →
       check_struct (.cons "f1" (.packed 5 8 none) (.cons "f2" (.packed 3 8 none) .nil))
         ≠ .ok (4 * (hexS "E3").length) →
       parse_struct_from_hex
         (.cons "f1" (.packed 5 8 none) (.cons "f2" (.packed 3 8 none) .nil)) (hexS "E3")
           = .error .lengthMismatch)) :=
  ⟨⟨by decide, by decide⟩,
   c1_decode_succeeds_iff (.cons "f1" (.packed 5 8 none) (.cons "f2" (.packed 3 8 none) .nil))
     (hexS "E3") (by decide) (by decide)⟩
/-- Declared bit length is additive over schema concatenation. -/
theorem schemaBits_append : ∀ (xs ys : Schema),
    schemaBits (xs ++ ys) = schemaBits xs + schemaBits ys
  | .nil, ys => by simp [schema_nil_append, schemaBits]
  | .cons n d r, ys => by
    rw [schema_cons_append]
    show descBits d + schemaBits (r ++ ys) = descBits d + schemaBits r + schemaBits ys
    rw [schemaBits_append r ys]
    omega

/-- Field count is additive over schema concatenation. -/
theorem schema_length_append : ∀ (xs ys : Schema),
    (xs ++ ys).length = xs.length + ys.length
  | .nil, ys => by simp [schema_nil_append, Schema.length]
  | .cons n d r, ys => by
    rw [schema_cons_append]
    show (r ++ ys).length + 1 = r.length + 1 + ys.length
    rw [schema_length_append r ys]
    omega

/-- The decoding loop over a concatenated schema runs the first part and
then continues from its final state. -/
theorem goS_append : ∀ (xs ys : Schema) (H : PyStr) (cursor off : Nat) (first : Bool)
    (cont : PyStr) (acc : List (String × Value)),
    goS (xs ++ ys) H cursor off first cont acc
      = match goS xs H cursor off first cont acc with
        | Except.error e => Except.error e
        | Except.ok (a, cur', off', fi', cont') => goS ys H cur' off' fi' cont' a
  | .nil, ys, H, cursor, off, first, cont, acc => by
    rw [schema_nil_append]
    rfl
  | .cons n d r, ys, H, cursor, off, first, cont, acc => by
    rw [schema_cons_append]
    show (match fieldStep d H cursor off first cont with
      | Except.error e => Except.error e
      | Except.ok (v, cursor', off', first', cont') =>
        goS (r ++ ys) H cursor' off' first' cont' (acc ++ [(n, v)])) = _
    cases hfs : fieldStep d H cursor off first cont with
    | error e => simp only [goS, hfs]
    | ok res =>
      obtain ⟨v, cursor', off', first', cont'⟩ := res
      simp only [goS, hfs]
      exact goS_append r ys H cursor' off' first' cont' (acc ++ [(n, v)])

/-- In a well-formed schema, a struct field sits at a container boundary:
the part before it is itself well-formed (or a well-formed open run), and
its nested schema and the suffix are well-formed. -/
theorem wf_split_at_struct : ∀ (pre : Schema) (name : String) (sub : Schema)
    (th : Option (Value → Value)) (post : Schema),
    (wfS (pre ++ .cons name (.structF sub th) post) = true →
      wfS pre = true ∧ wfS sub = true ∧ wfS post = true) ∧
    (∀ off c, wfRun (pre ++ .cons name (.structF sub th) post) off c = true →
      wfRun pre off c = true ∧ wfS sub = true ∧ wfS post = true)
  | .nil, name, sub, th, post => by
    constructor
    · intro h
      rw [schema_nil_append] at h
      simp only [wfS, wfD, Bool.and_eq_true] at h
      exact ⟨rfl, h.1, h.2⟩
    · intro off c h
      rw [schema_nil_append] at h
      simp [wfRun] at h
  | .cons n (.scalar w) pre', name, sub, th, post => by
    refine ⟨fun h => ?_, fun off c h => by rw [schema_cons_append] at h; simp [wfRun] at h⟩
    rw [schema_cons_append] at h
    simp only [wfS, wfD, Bool.true_and, Bool.and_eq_true, beq_iff_eq, bne_iff_ne] at h
    obtain ⟨⟨hm, hnz⟩, h'⟩ := h
    obtain ⟨hpre, hsub, hpost⟩ := (wf_split_at_struct pre' name sub th post).1 h'
    refine ⟨?_, hsub, hpost⟩
    simp only [wfS, wfD, Bool.true_and, Bool.and_eq_true, beq_iff_eq, bne_iff_ne]
    exact ⟨⟨hm, hnz⟩, hpre⟩
  | .cons n (.array m t) pre', name, sub, th, post => by
    refine ⟨fun h => ?_, fun off c h => by rw [schema_cons_append] at h; simp [wfRun] at h⟩
    rw [schema_cons_append] at h
    simp only [wfS, wfD, Bool.true_and, Bool.and_eq_true, beq_iff_eq] at h
    obtain ⟨hm, h'⟩ := h
    obtain ⟨hpre, hsub, hpost⟩ := (wf_split_at_struct pre' name sub th post).1 h'
    refine ⟨?_, hsub, hpost⟩
    simp only [wfS, wfD, Bool.true_and, Bool.and_eq_true, beq_iff_eq]
    exact ⟨hm, hpre⟩
  | .cons n (.strF m t) pre', name, sub, th, post => by
    refine ⟨fun h => ?_, fun off c h => by rw [schema_cons_append] at h; simp [wfRun] at h⟩
    rw [schema_cons_append] at h
    simp only [wfS, wfD, Bool.true_and, Bool.and_eq_true, beq_iff_eq] at h
    obtain ⟨hm, h'⟩ := h
    obtain ⟨hpre, hsub, hpost⟩ := (wf_split_at_struct pre' name sub th post).1 h'
    refine ⟨?_, hsub, hpost⟩
    simp only [wfS, wfD, Bool.true_and, Bool.and_eq_true, beq_iff_eq]
    exact ⟨hm, hpre⟩
  | .cons n (.structF s2 t) pre', name, sub, th, post => by
    refine ⟨fun h => ?_, fun off c h => by rw [schema_cons_append] at h; simp [wfRun] at h⟩
    rw [schema_cons_append] at h
    simp only [wfS, wfD, Bool.and_eq_true] at h
    obtain ⟨hs2, h'⟩ := h
    obtain ⟨hpre, hsub, hpost⟩ := (wf_split_at_struct pre' name sub th post).1 h'
    refine ⟨?_, hsub, hpost⟩
    simp only [wfS, wfD, Bool.and_eq_true]
    exact ⟨hs2, hpre⟩
  | .cons n (.packed w c' t) pre', name, sub, th, post => by
    constructor
    · intro h
      rw [schema_cons_append] at h
      simp only [wfS, wfD, Bool.true_and, Bool.and_eq_true, beq_iff_eq, bne_iff_ne] at h
      obtain ⟨⟨hm, hnz⟩, hif⟩ := h
      split at hif
      · next hwc =>
        obtain ⟨hpre, hsub, hpost⟩ := (wf_split_at_struct pre' name sub th post).1 hif
        refine ⟨?_, hsub, hpost⟩
        simp only [wfS, wfD, Bool.true_and, Bool.and_eq_true, beq_iff_eq, bne_iff_ne]
        refine ⟨⟨hm, hnz⟩, ?_⟩
        rw [if_pos hwc]
        exact hpre
      · split at hif
        · next hne hlt =>
          obtain ⟨hpre, hsub, hpost⟩ := (wf_split_at_struct pre' name sub th post).2 w c' hif
          refine ⟨?_, hsub, hpost⟩
          simp only [wfS, wfD, Bool.true_and, Bool.and_eq_true, beq_iff_eq, bne_iff_ne]
          refine ⟨⟨hm, hnz⟩, ?_⟩
          rw [if_neg hne, if_pos hlt]
          exact hpre
        · exact absurd hif (by simp)
    · intro off c h
      rw [schema_cons_append] at h
      simp only [wfRun, Bool.and_eq_true, beq_iff_eq] at h
      obtain ⟨hcc, hif⟩ := h
      subst hcc
      split at hif
      · next heq =>
        obtain ⟨hpre, hsub, hpost⟩ := (wf_split_at_struct pre' name sub th post).1 hif
        refine ⟨?_, hsub, hpost⟩
        simp only [wfRun, Bool.and_eq_true, beq_iff_eq]
        refine ⟨trivial, ?_⟩
        rw [if_pos heq]
        exact hpre
      · split at hif
        · next hne hlt =>
          obtain ⟨hpre, hsub, hpost⟩ := (wf_split_at_struct pre' name sub th post).2 (off + w) c' hif
          refine ⟨?_, hsub, hpost⟩
          simp only [wfRun, Bool.and_eq_true, beq_iff_eq]
          refine ⟨trivial, ?_⟩
          rw [if_neg hne, if_pos hlt]
          exact hpre
        · exact absurd hif (by simp)

/-- C5: nested struct equivalence.  For every well-formed outer schema (the
specification's data-model invariants, modelled by `wfS`) containing a
Struct field with nested schema `sub` at byte offset `schemaBits pre / 8`
of a matching payload, the value stored for that field equals the result
of independently calling `parse_struct_from_hex` on the substring covering
exactly `sub`'s validated bit length at that offset. -/
theorem c5_nested_struct_equivalence (pre : Schema) (name : String) (sub post : Schema)
    (H : PyStr)
    (hwf : wfS (pre ++ .cons name (.structF sub none) post) = true)
    (hhex : H.all hexOk = true) (heven : H.length % 2 = 0)
    (hlen : 4 * H.length = schemaBits (pre ++ .cons name (.structF sub none) post)) :
    ∃ r r', parse_struct_from_hex (pre ++ .cons name (.structF sub none) post) H = .ok r ∧
      parse_struct_from_hex sub
        ((H.drop (schemaBits pre / 4)).take (schemaBits sub / 4)) = .ok r' ∧
      r[pre.length]? = some (name, Value.struct r') := by
  obtain ⟨hpre, hsub, hpost⟩ := (wf_split_at_struct pre name sub none post).1 hwf
  have hm8 : schemaBits sub % 8 = 0 := (bits8 sub).1 hsub
  have hpre8 : schemaBits pre % 8 = 0 := (bits8 pre).1 hpre
  have hbitsall : schemaBits (pre ++ .cons name (.structF sub none) post)
      = schemaBits pre + (schemaBits sub + schemaBits post) := by
    rw [schemaBits_append]; rfl
  rw [hbitsall] at hlen
  -- decode the prefix
  obtain ⟨tpre, off2, cont2, htpre, hlpre⟩ := (goS_wf pre).1 H 0 0 [] [] hpre hhex heven rfl
    (by omega)
  rw [List.nil_append] at htpre
  -- the slice holding the struct field
  have hsl_len : (pySlice H ((schemaBits pre / 4 : Nat) : Int)
      ((schemaBits pre / 4 + schemaBits sub / 4 : Nat) : Int)).length = schemaBits sub / 4 := by
    have := slice_length H (schemaBits pre / 4) (schemaBits pre / 4 + schemaBits sub / 4)
      (by omega) (by omega)
    rw [this]; omega
  -- decode the nested schema independently on the slice
  obtain ⟨tsub, soff, scont, htsub, hlsub⟩ := (goS_wf sub).1
    (pySlice H ((schemaBits pre / 4 : Nat) : Int)
      ((schemaBits pre / 4 + schemaBits sub / 4 : Nat) : Int)) 0 0 [] [] hsub
    (slice_all_hexOk H _ _ hhex) (by rw [hsl_len]; omega) (by omega) (by rw [hsl_len]; omega)
  rw [List.nil_append] at htsub
  have hparse_sub : parse_struct_from_hex sub
      (pySlice H ((schemaBits pre / 4 : Nat) : Int)
        ((schemaBits pre / 4 + schemaBits sub / 4 : Nat) : Int)) = .ok tsub := by
    rw [parse_struct_from_hex, if_neg (by rw [hsl_len]; omega), check_struct_of_wfS sub hsub]
    dsimp only
    rw [if_neg (by rw [hsl_len]; omega), htsub]
  -- the slice equals the substring of the claim
  have hslice_eq : pySlice H ((schemaBits pre / 4 : Nat) : Int)
      ((schemaBits pre / 4 + schemaBits sub / 4 : Nat) : Int)
      = (H.drop (schemaBits pre / 4)).take (schemaBits sub / 4) := by
    rw [pySlice_natCast, List.drop_take]
    congr 1
    omega
  -- one step of the loop on the struct field
  have hfs : fieldStep (.structF sub none) H (schemaBits pre) off2 true cont2
      = .ok (.struct tsub, schemaBits pre + schemaBits sub, 0 + schemaBits sub,
          (0 + schemaBits sub == schemaBits sub),
          pySlice H ((schemaBits pre / 4 : Nat) : Int)
            ((schemaBits pre / 4 + schemaBits sub / 4 : Nat) : Int)) := by
    simp only [fieldStep, if_true, FieldDesc.handlerOf, check_struct_of_wfS sub hsub]
    rw [if_neg (show ¬((pySlice H ((schemaBits pre / 4 : Nat) : Int)
        ((schemaBits pre / 4 + schemaBits sub / 4 : Nat) : Int)).length % 2 ≠ 0) by
          rw [hsl_len]; omega)]
    rw [if_neg (show ¬(schemaBits sub ≠ (pySlice H ((schemaBits pre / 4 : Nat) : Int)
        ((schemaBits pre / 4 + schemaBits sub / 4 : Nat) : Int)).length * 4) by
          rw [hsl_len]; omega)]
    rw [htsub]
  -- decode the suffix
  obtain ⟨tpost, poff, pcont, htpost, hlpost⟩ := (goS_wf post).1 H
    (schemaBits pre + schemaBits sub) (0 + schemaBits sub)
    (pySlice H ((schemaBits pre / 4 : Nat) : Int)
      ((schemaBits pre / 4 + schemaBits sub / 4 : Nat) : Int))
    (tpre ++ [(name, Value.struct tsub)]) hpost hhex heven (by omega) (by omega)
  -- assemble the full decode
  have hgo : goS (pre ++ .cons name (.structF sub none) post) H 0 0 true [] []
      = .ok (tpre ++ [(name, Value.struct tsub)] ++ tpost,
          schemaBits pre + schemaBits sub + schemaBits post, poff, true, pcont) := by
    rw [goS_append, htpre]
    dsimp only
    simp only [Nat.zero_add]
    show (match fieldStep (.structF sub none) H (schemaBits pre) off2 true cont2 with
      | Except.error e => Except.error e
      | Except.ok (v, cursor', off', first', cont') =>
        goS post H cursor' off' first' cont' (tpre ++ [(name, v)])) = _
    rw [hfs]
    dsimp only
    rw [show ((0 + schemaBits sub == schemaBits sub) : Bool) = true by simp]
    rw [htpost]
  refine ⟨tpre ++ [(name, Value.struct tsub)] ++ tpost, tsub, ?_, ?_, ?_⟩
  · rw [parse_struct_from_hex, if_neg (by omega),
        check_struct_of_wfS _ hwf]
    dsimp only
    rw [if_neg (show ¬(schemaBits (pre ++ .cons name (.structF sub none) post)
        ≠ H.length * 4) by rw [hbitsall]; omega)]
    rw [hgo]
  · rw [← hslice_eq]
    exact hparse_sub
  · rw [List.append_assoc]
    rw [List.getElem?_append_right (by omega)]
    rw [hlpre]
    simp

/-- Witness for C5: an 8-bit scalar followed by a struct holding one 8-bit
scalar, over hex "12ab"; the struct field's stored value is the independent
decode of the payload's second byte. -/
theorem c5_nested_struct_equivalence_witness :
    (wfS ((Schema.cons "a" (.scalar 8) .nil)
        ++ .cons "s" (.structF (.cons "x" (.scalar 8) .nil) none) .nil) = true ∧
     (hexS "12ab").all hexOk = true ∧
     (hexS "12ab").length % 2 = 0 ∧
     4 * (hexS "12ab").length = schemaBits ((Schema.cons "a" (.scalar 8) .nil)
        ++ .cons "s" (.structF (.cons "x" (.scalar 8) .nil) none) .nil)) ∧
    (∃ r r', parse_struct_from_hex ((Schema.cons "a" (.scalar 8) .nil)
        ++ .cons "s" (.structF (.cons "x" (.scalar 8) .nil) none) .nil) (hexS "12ab")
          = .ok r ∧
      parse_struct_from_hex (.cons "x" (.scalar 8) .nil)
        (((hexS "12ab").drop (schemaBits (Schema.cons "a" (.scalar 8) .nil) / 4)).take
          (schemaBits (Schema.cons "x" (.scalar 8) .nil) / 4)) = .ok r' ∧
      r[(Schema.cons "a" (.scalar 8) Schema.nil).length]? = some ("s", Value.struct r')) :=
  ⟨⟨by decide, by decide, by decide, by decide⟩,
   c5_nested_struct_equivalence (Schema.cons "a" (.scalar 8) .nil) "s"
     (.cons "x" (.scalar 8) .nil) .nil (hexS "12ab")
     (by decide) (by decide) (by decide) (by decide)⟩
